import Mathlib

/-
Verification of the batch-construction and loss-computation core of
src/kge/job/train.py (training jobs for knowledge-graph embedding models).

The Lean definitions below are shallow embeddings of the Python code:
pure index arithmetic is translated directly, tensors become lists
(row-major), scores and losses live in ℚ, and the model / loss
collaborators are abstract function parameters.  Line numbers refer to
src/kge/job/train.py.
-/

namespace KgeTrain

/-! ## Negative-sampling implementation auto-resolution
(TrainingJobNegativeSampling.__init__, lines 1084-1095).

The sampler exposes `num_samples` for the three slots S, P, O and a
`shared` flag; `max_nr_of_negs = max(self._sampler.num_samples)`. -/

/-- Resolution of the "auto" negative-sampling implementation, mirroring the
if/elif chain of lines 1087-1094.  The Python chain has no final else, so if
neither branch fired the string would stay "auto"; that branch is unreachable. -/
def resolveAutoImplementation (shared : Bool) (kS kP kO : ℕ) : String :=
  if shared then "batch"
  else if max (max kS kP) kO ≤ 30 then "triple"
  else if 30 < max (max kS kP) kO then "batch"
  else "auto"

/-- C2: when the negative-sampling implementation is configured as "auto", the
resolved strategy is "batch" whenever the sampler's shared flag is true
(regardless of the per-slot negative counts); otherwise "triple" if the maximum
negative count over the slots S, P, O is at most 30; otherwise (maximum 31 or
more) "batch".  (Lines 1087-1094.) -/
theorem auto_resolution_policy (shared : Bool) (kS kP kO : ℕ) :
    (shared = true → resolveAutoImplementation shared kS kP kO = "batch") ∧
    (shared = false → max (max kS kP) kO ≤ 30 →
      resolveAutoImplementation shared kS kP kO = "triple") ∧
    (shared = false → 31 ≤ max (max kS kP) kO →
      resolveAutoImplementation shared kS kP kO = "batch") := by
  refine ⟨fun h => ?_, fun h hle => ?_, fun h hgt => ?_⟩ <;> subst h
  · rfl
  · unfold resolveAutoImplementation
    rw [if_neg Bool.false_ne_true, if_pos hle]
  · unfold resolveAutoImplementation
    rw [if_neg Bool.false_ne_true, if_neg (by omega), if_pos (by omega)]

/-- Witness for C2 at concrete inputs: shared=false, counts (10, 30, 7). -/
theorem auto_resolution_policy_witness :
    resolveAutoImplementation false 10 30 7 = "triple" :=
  (auto_resolution_policy false 10 30 7).2.1 rfl (by decide)

/-! ## Chunking of a negative-sampling batch
(TrainingJobNegativeSampling._process_batch, lines 1163-1175).

`max_chunk_size = self._max_chunk_size if self._max_chunk_size > 0 else
batch_size`; the loop runs `chunk_number in range(math.ceil(batch_size /
max_chunk_size))` with `chunk_start = max_chunk_size * chunk_number` and
`chunk_end = min(max_chunk_size * (chunk_number + 1), batch_size)`. -/

/-- Resolved chunk size (lines 1164-1166). -/
def resolvedChunkSize (batchSize maxChunkSize : ℕ) : ℕ :=
  if 0 < maxChunkSize then maxChunkSize else batchSize

/-- Number of chunk iterations, `math.ceil(batch_size / max_chunk_size)`
(line 1167), as the exact natural-number ceiling. -/
def numChunks (batchSize maxChunkSize : ℕ) : ℕ :=
  (batchSize + resolvedChunkSize batchSize maxChunkSize - 1) /
    resolvedChunkSize batchSize maxChunkSize

/-- The list of `[chunk_start, chunk_end)` ranges visited by the chunk loop
(lines 1167-1175). -/
def chunkRanges (batchSize maxChunkSize : ℕ) : List (ℕ × ℕ) :=
  (List.range (numChunks batchSize maxChunkSize)).map
    (fun i => (resolvedChunkSize batchSize maxChunkSize * i,
               min (resolvedChunkSize batchSize maxChunkSize * (i + 1)) batchSize))

theorem chunkRanges_length (n mc : ℕ) :
    (chunkRanges n mc).length = numChunks n mc := by
  simp [chunkRanges]

theorem chunkRanges_getD (n mc i : ℕ) (hi : i < numChunks n mc) :
    (chunkRanges n mc).getD i (0, 0) =
      (resolvedChunkSize n mc * i, min (resolvedChunkSize n mc * (i + 1)) n) := by
  have hlen : i < (chunkRanges n mc).length := by rw [chunkRanges_length]; exact hi
  rw [List.getD_eq_getElem _ _ hlen]
  unfold chunkRanges
  rw [List.getElem_map, List.getElem_range]

theorem resolvedChunkSize_pos (n mc : ℕ) (hn : 0 < n) :
    0 < resolvedChunkSize n mc := by
  unfold resolvedChunkSize
  split <;> omega

/-- Rounding up: `n ≤ c * ⌈n / c⌉`. -/
theorem ceil_mul_ge (n c : ℕ) (hc : 0 < c) : n ≤ c * ((n + c - 1) / c) := by
  have hdm := Nat.div_add_mod (n + c - 1) c
  have hr : (n + c - 1) % c < c := Nat.mod_lt _ hc
  omega

/-- Each chunk start index is strictly below `n`. -/
theorem chunk_start_lt (n c i : ℕ) (hc : 0 < c) (hn : 0 < n)
    (hi : i < (n + c - 1) / c) : c * i < n := by
  have hdm := Nat.div_add_mod (n + c - 1) c
  have hr : (n + c - 1) % c < c := Nat.mod_lt _ hc
  have hmul : c * (i + 1) ≤ c * ((n + c - 1) / c) :=
    Nat.mul_le_mul_left c (by omega)
  have hsucc : c * (i + 1) = c * i + c := by ring
  omega

/-- Every index below `n` falls in the chunk numbered by its quotient. -/
theorem lt_ceil_of_lt (n c j : ℕ) (hc : 0 < c) (hj : j < n) :
    j / c < (n + c - 1) / c := by
  by_contra hcon
  push_neg at hcon
  have h1 : c * ((n + c - 1) / c) ≤ c * (j / c) := Nat.mul_le_mul_left c hcon
  have h2 := Nat.div_add_mod j c
  have h3 := ceil_mul_ge n c hc
  omega

/-- Ranges produced by `chunkRanges` are nonempty and end within the batch. -/
theorem chunkRanges_mem_bounds (n mc : ℕ) (hn : 0 < n) :
    ∀ r ∈ chunkRanges n mc, r.1 < r.2 ∧ r.2 ≤ n := by
  intro r hr
  have hc : 0 < resolvedChunkSize n mc := resolvedChunkSize_pos n mc hn
  unfold chunkRanges at hr
  rw [List.mem_map] at hr
  obtain ⟨i, hi, hrange⟩ := hr
  rw [List.mem_range] at hi
  subst hrange
  have h1 : resolvedChunkSize n mc * i < n := chunk_start_lt n _ i hc hn hi
  have h2 : resolvedChunkSize n mc * (i + 1) = resolvedChunkSize n mc * i +
      resolvedChunkSize n mc := by ring
  constructor
  · simp only
    rw [Nat.min_def]
    split <;> omega
  · simp only
    rw [Nat.min_def]
    split <;> omega

/-- C6: for a negative-sampling batch of size n with configured chunk size mc,
the chunk loop visits ⌈n / c⌉ chunks (c the resolved chunk size), whose index
ranges are contiguous, pairwise disjoint, cover [0, n) exhaustively, contain at
most c rows each (and at least one row); and with configured chunk size 0 the
whole batch is a single chunk [0, n).  (Lines 1163-1175.) -/
theorem chunking_partition (n mc : ℕ) (hn : 0 < n) :
    (chunkRanges n mc).length = numChunks n mc ∧
    (∀ i, i + 1 < (chunkRanges n mc).length →
      ((chunkRanges n mc).getD (i + 1) (0, 0)).1 =
        ((chunkRanges n mc).getD i (0, 0)).2) ∧
    (∀ i, i < (chunkRanges n mc).length →
      ((chunkRanges n mc).getD i (0, 0)).2 - ((chunkRanges n mc).getD i (0, 0)).1
          ≤ resolvedChunkSize n mc ∧
      ((chunkRanges n mc).getD i (0, 0)).1 < ((chunkRanges n mc).getD i (0, 0)).2 ∧
      ((chunkRanges n mc).getD i (0, 0)).2 ≤ n) ∧
    (∀ j, j < n → ∃ i, i < (chunkRanges n mc).length ∧
      ((chunkRanges n mc).getD i (0, 0)).1 ≤ j ∧
      j < ((chunkRanges n mc).getD i (0, 0)).2) ∧
    (∀ i i', i < i' → i' < (chunkRanges n mc).length →
      ((chunkRanges n mc).getD i (0, 0)).2 ≤ ((chunkRanges n mc).getD i' (0, 0)).1) ∧
    (mc = 0 → chunkRanges n 0 = [(0, n)]) := by
  have hc : 0 < resolvedChunkSize n mc := resolvedChunkSize_pos n mc hn
  have hlen : (chunkRanges n mc).length = numChunks n mc := chunkRanges_length n mc
  have hq : numChunks n mc = (n + resolvedChunkSize n mc - 1) / resolvedChunkSize n mc :=
    rfl
  refine ⟨hlen, ?_, ?_, ?_, ?_, ?_⟩
  · -- contiguity
    intro i hi1
    rw [hlen] at hi1
    rw [chunkRanges_getD n mc (i + 1) (by omega), chunkRanges_getD n mc i (by omega)]
    have h1 : resolvedChunkSize n mc * (i + 1) < n := by
      refine chunk_start_lt n _ (i + 1) hc hn ?_
      rw [hq] at hi1
      omega
    simp only
    rw [Nat.min_def]
    split <;> omega
  · -- size bounds
    intro i hi
    rw [hlen] at hi
    rw [chunkRanges_getD n mc i hi]
    have h1 : resolvedChunkSize n mc * i < n :=
      chunk_start_lt n _ i hc hn (by rw [hq] at hi; exact hi)
    have h2 : resolvedChunkSize n mc * (i + 1) = resolvedChunkSize n mc * i +
        resolvedChunkSize n mc := by ring
    simp only
    rw [Nat.min_def]
    split <;> omega
  · -- coverage
    intro j hj
    have hidx : j / resolvedChunkSize n mc < numChunks n mc := by
      rw [hq]
      exact lt_ceil_of_lt n _ j hc hj
    refine ⟨j / resolvedChunkSize n mc, by rw [hlen]; exact hidx, ?_⟩
    rw [chunkRanges_getD n mc _ hidx]
    have hdm := Nat.div_add_mod j (resolvedChunkSize n mc)
    have hr : j % resolvedChunkSize n mc < resolvedChunkSize n mc := Nat.mod_lt _ hc
    have h2 : resolvedChunkSize n mc * (j / resolvedChunkSize n mc + 1) =
        resolvedChunkSize n mc * (j / resolvedChunkSize n mc) +
          resolvedChunkSize n mc := by ring
    simp only
    rw [Nat.min_def]
    constructor
    · omega
    · split <;> omega
  · -- pairwise disjointness
    intro i i' hii hi'
    rw [hlen] at hi'
    rw [chunkRanges_getD n mc i (by omega), chunkRanges_getD n mc i' hi']
    have h1 : resolvedChunkSize n mc * (i + 1) ≤ resolvedChunkSize n mc * i' :=
      Nat.mul_le_mul_left _ (by omega)
    simp only
    rw [Nat.min_def]
    split <;> omega
  · -- chunk size 0: one chunk covering the whole batch
    intro hmc
    subst hmc
    have hcn : resolvedChunkSize n 0 = n := by simp [resolvedChunkSize]
    have hone : numChunks n 0 = 1 := by
      unfold numChunks
      rw [hcn]
      have h1 : n + n - 1 = (n - 1) + n := by omega
      rw [h1, Nat.add_div_right _ hn, Nat.div_eq_of_lt (by omega)]
    have hrange : List.range 1 = [0] := rfl
    simp [chunkRanges, hone, hcn, hrange, mul_one, mul_zero, min_self]

/-- Witness for C6 at n = 5, mc = 2: the loop bookkeeping at a concrete size. -/
theorem chunking_partition_witness :
    (chunkRanges 5 2).length = numChunks 5 2 :=
  (chunking_partition 5 2 (by decide)).1

/-! ## Negative-sampling scoring strategies
(TrainingJobNegativeSampling._process_batch, lines 1195-1306).

A chunk is a list of positive triples plus, per row, a fixed-width list of
negative candidate values for the slot being corrupted.  For each row the
column layout is `cat((triples[:, [slot]], negative_samples[slot]), 1)`:
the positive value first, then the `k` negatives in their given order.
The model collaborator is abstracted as scoring functions over ℚ. -/

/-- A (subject, predicate, object) triple of dense indices. -/
structure Triple where
  s : ℕ
  p : ℕ
  o : ℕ
deriving DecidableEq, Repr

/-- `triples[:, slot]` for slot ∈ {0, 1, 2} = {S, P, O}. -/
def slotVal (t : Triple) (slot : ℕ) : ℕ :=
  if slot = 0 then t.s else if slot = 1 then t.p else t.o

/-- `triples_to_score[:, slot] = v` — replace one slot of a triple. -/
def setSlot (t : Triple) (slot : ℕ) (v : ℕ) : Triple :=
  if slot = 0 then { t with s := v }
  else if slot = 1 then { t with p := v }
  else if slot = 2 then { t with o := v }
  else t

/-- The model collaborator's scoring call shapes used by _process_batch:
`score_spo` scores one triple (triple strategy, line 1212); `score_po/so/sp`
score a query against the whole vocabulary, last argument the target index
(all strategy, lines 1228-1232); `score_*_sub` score a query against an
explicit target subset, last argument a column position into that subset
(batch strategy, lines 1276-1286). -/
structure NSModel where
  score_spo : Triple → ℚ
  score_po : ℕ → ℕ → ℕ → ℚ
  score_so : ℕ → ℕ → ℕ → ℚ
  score_sp : ℕ → ℕ → ℕ → ℚ
  score_po_sub : ℕ → ℕ → List ℕ → ℕ → ℚ
  score_so_sub : ℕ → ℕ → List ℕ → ℕ → ℚ
  score_sp_sub : ℕ → ℕ → List ℕ → ℕ → ℚ

/-- Dispatch of the full-vocabulary scoring call by slot (lines 1227-1234):
slot S uses `score_po(P, O)`, slot P uses `score_so(S, O)`, slot O uses
`score_sp(S, P)`. -/
def scoreFull (M : NSModel) (slot : ℕ) (t : Triple) : ℕ → ℚ :=
  if slot = 0 then M.score_po t.p t.o
  else if slot = 1 then M.score_so t.s t.o
  else M.score_sp t.s t.p

/-- Dispatch of the subset scoring call by slot (lines 1275-1288). -/
def scoreSub (M : NSModel) (slot : ℕ) (t : Triple) : List ℕ → ℕ → ℚ :=
  if slot = 0 then M.score_po_sub t.p t.o
  else if slot = 1 then M.score_so_sub t.s t.o
  else M.score_sp_sub t.s t.p

/-- Per-row column layout `cat((triples[:, [slot]], negative_samples[slot]), 1)`:
positive value first, then the negatives in their given order. -/
def targetsRow (slot : ℕ) (t : Triple) (ns : List ℕ) : List ℕ :=
  slotVal t slot :: ns

/-- The "triple" strategy (lines 1197-1217): expand each row into 1+k full
triples (positive first, then each negative substituted into the slot), score
each with `score_spo`, and view the result as a [chunk_size, 1+k] matrix. -/
def scoresTriple (M : NSModel) (slot : ℕ) (triples : List Triple)
    (negs : List (List ℕ)) : List (List ℚ) :=
  (triples.zip negs).map (fun r =>
    (targetsRow slot r.1 r.2).map (fun v => M.score_spo (setSlot r.1 slot v)))

/-- The "all" strategy (lines 1219-1259): score each query against the entire
target vocabulary, then gather the 1+k relevant columns
(`all_scores[row_indexes, column_indexes].view(chunk_size, -1)`). -/
def scoresAll (M : NSModel) (slot : ℕ) (triples : List Triple)
    (negs : List (List ℕ)) : List (List ℚ) :=
  (triples.zip negs).map (fun r =>
    (targetsRow slot r.1 r.2).map (scoreFull M slot r.1))

/-- `torch.unique(..., return_inverse=True)` returns the sorted distinct
values; the inverse index of `v` is its position in that sorted list. -/
def uniqueSorted (l : List ℕ) : List ℕ :=
  l.toFinset.sort (· ≤ ·)

/-- All targets occurring anywhere in the chunk, flattened row-major
(`torch.cat((triples[:, [slot]], negative_samples[slot]), 1).view(-1)`). -/
def chunkTargets (slot : ℕ) (triples : List Triple) (negs : List (List ℕ)) :
    List ℕ :=
  (triples.zip negs).flatMap (fun r => targetsRow slot r.1 r.2)

/-- The "batch" strategy (lines 1260-1306): deduplicate the chunk's targets
into `unique_targets`, score each query against only that subset, then gather
via the inverse-index mapping back to the original 1+k layout. -/
def scoresBatch (M : NSModel) (slot : ℕ) (triples : List Triple)
    (negs : List (List ℕ)) : List (List ℚ) :=
  (triples.zip negs).map (fun r =>
    (targetsRow slot r.1 r.2).map (fun v =>
      scoreSub M slot r.1 (uniqueSorted (chunkTargets slot triples negs))
        ((uniqueSorted (chunkTargets slot triples negs)).indexOf v)))

theorem setSlot_slotVal (t : Triple) (slot : ℕ) (hslot : slot < 3) :
    setSlot t slot (slotVal t slot) = t := by
  unfold setSlot slotVal
  rcases slot with _ | _ | _ | n <;> simp at hslot ⊢

/-- Round trip through `torch.unique`'s inverse index: for a value occurring
in the list, the unique array at its inverse index is the value itself. -/
theorem uniqueSorted_getD_indexOf (l : List ℕ) (v : ℕ) (hv : v ∈ l) :
    (uniqueSorted l).indexOf v < (uniqueSorted l).length ∧
    (uniqueSorted l).getD ((uniqueSorted l).indexOf v) 0 = v := by
  have hmem : v ∈ uniqueSorted l := by
    unfold uniqueSorted
    rw [Finset.mem_sort]
    exact List.mem_toFinset.mpr hv
  have hidx : (uniqueSorted l).indexOf v < (uniqueSorted l).length :=
    List.indexOf_lt_length.mpr hmem
  refine ⟨hidx, ?_⟩
  rw [List.getD_eq_getElem _ _ hidx]
  exact List.getElem_indexOf hidx

/-- C1: for every chunk (given as the chunk's triples and per-row negatives of
width k > 0), a valid slot, and a model whose full-vocabulary and
subset-scoring calls agree with its per-triple scoring (the fixed model
scoring functions), the strategies "all" and "batch" produce exactly the score
matrix of the reference "triple" strategy; the matrix has shape
[chunk_size, 1+k]; and row i is the positive triple's score followed by the
scores of its negatives in their given order (column 0 = positive score).
(Lines 1197-1306.) -/
theorem ns_strategy_equivalence (M : NSModel) (slot k : ℕ)
    (triples : List Triple) (negs : List (List ℕ))
    (hslot : slot < 3) (_hk0 : 0 < k)
    (htl : triples.length = negs.length)
    (hlen : ∀ ns ∈ negs, ns.length = k)
    (hpo : ∀ p o v, M.score_po p o v = M.score_spo (Triple.mk v p o))
    (hso : ∀ s o v, M.score_so s o v = M.score_spo (Triple.mk s v o))
    (hsp : ∀ s p v, M.score_sp s p v = M.score_spo (Triple.mk s p v))
    (hpoSub : ∀ p o ts j, j < ts.length →
      M.score_po_sub p o ts j = M.score_po p o (ts.getD j 0))
    (hsoSub : ∀ s o ts j, j < ts.length →
      M.score_so_sub s o ts j = M.score_so s o (ts.getD j 0))
    (hspSub : ∀ s p ts j, j < ts.length →
      M.score_sp_sub s p ts j = M.score_sp s p (ts.getD j 0)) :
    scoresAll M slot triples negs = scoresTriple M slot triples negs ∧
    scoresBatch M slot triples negs = scoresTriple M slot triples negs ∧
    (scoresTriple M slot triples negs).length = triples.length ∧
    (∀ row ∈ scoresTriple M slot triples negs, row.length = 1 + k) ∧
    (∀ i, i < triples.length →
      (scoresTriple M slot triples negs).getD i [] =
        M.score_spo ((triples.zip negs).getD i (Triple.mk 0 0 0, [])).1 ::
          ((triples.zip negs).getD i (Triple.mk 0 0 0, [])).2.map
            (fun v => M.score_spo
              (setSlot ((triples.zip negs).getD i (Triple.mk 0 0 0, [])).1 slot v))) := by
  have hfull : ∀ t v, scoreFull M slot t v = M.score_spo (setSlot t slot v) := by
    intro t v
    unfold scoreFull setSlot
    rcases slot with _ | _ | _ | n
    · simpa using hpo t.p t.o v
    · simpa using hso t.s t.o v
    · simpa using hsp t.s t.p v
    · omega
  have hsub : ∀ t ts j, j < ts.length →
      scoreSub M slot t ts j = scoreFull M slot t (ts.getD j 0) := by
    intro t ts j hj
    unfold scoreSub scoreFull
    rcases slot with _ | _ | _ | n
    · simpa using hpoSub t.p t.o ts j hj
    · simpa using hsoSub t.s t.o ts j hj
    · simpa using hspSub t.s t.p ts j hj
    · omega
  have hzlen : (triples.zip negs).length = triples.length := by
    rw [List.length_zip, htl, min_self]
  refine ⟨?_, ?_, ?_, ?_, ?_⟩
  · -- all = triple
    unfold scoresAll scoresTriple
    refine List.map_congr_left (fun r _ => ?_)
    refine List.map_congr_left (fun v _ => ?_)
    exact hfull r.1 v
  · -- batch = triple
    unfold scoresBatch scoresTriple
    refine List.map_congr_left (fun r hr => ?_)
    refine List.map_congr_left (fun v hv => ?_)
    have hvmem : v ∈ chunkTargets slot triples negs := by
      unfold chunkTargets
      exact List.mem_flatMap.mpr ⟨r, hr, hv⟩
    obtain ⟨hidx, hget⟩ :=
      uniqueSorted_getD_indexOf (chunkTargets slot triples negs) v hvmem
    rw [hsub r.1 _ _ hidx, hget, hfull r.1 v]
  · -- chunk_size rows
    unfold scoresTriple
    rw [List.length_map, hzlen]
  · -- 1+k columns
    intro row hrow
    unfold scoresTriple at hrow
    rw [List.mem_map] at hrow
    obtain ⟨r, hr, hrew⟩ := hrow
    subst hrew
    have hns : r.2 ∈ negs := (List.of_mem_zip hr).2
    rw [List.length_map]
    unfold targetsRow
    rw [List.length_cons, hlen r.2 hns]
    omega
  · -- row layout: positive score first, then the negatives' scores in order
    intro i hi
    have hi' : i < (triples.zip negs).length := by rw [hzlen]; exact hi
    have hlen' : i < (scoresTriple M slot triples negs).length := by
      unfold scoresTriple
      rw [List.length_map]
      exact hi'
    rw [List.getD_eq_getElem _ _ hlen', List.getD_eq_getElem _ _ hi']
    unfold scoresTriple
    rw [List.getElem_map]
    unfold targetsRow
    rw [List.map_cons, setSlot_slotVal _ slot hslot]

/-- Demonstration model for the witness: one scoring function exposed through
all three call shapes. -/
def demoScore (t : Triple) : ℚ :=
  (t.s : ℚ) + 2 * (t.p : ℚ) + 5 * (t.o : ℚ)

def demoModel : NSModel where
  score_spo := demoScore
  score_po := fun p o v => demoScore (Triple.mk v p o)
  score_so := fun s o v => demoScore (Triple.mk s v o)
  score_sp := fun s p v => demoScore (Triple.mk s p v)
  score_po_sub := fun p o ts j => demoScore (Triple.mk (ts.getD j 0) p o)
  score_so_sub := fun s o ts j => demoScore (Triple.mk s (ts.getD j 0) o)
  score_sp_sub := fun s p ts j => demoScore (Triple.mk s p (ts.getD j 0))

/-- Witness for C1 on the spec's concrete scenario: slot O of triple (0,0,1)
with negatives [3,4]. -/
theorem ns_strategy_equivalence_witness :
    scoresAll demoModel 2 [Triple.mk 0 0 1] [[3, 4]] =
        scoresTriple demoModel 2 [Triple.mk 0 0 1] [[3, 4]] ∧
    scoresBatch demoModel 2 [Triple.mk 0 0 1] [[3, 4]] =
        scoresTriple demoModel 2 [Triple.mk 0 0 1] [[3, 4]] :=
  ⟨(ns_strategy_equivalence demoModel 2 2 [Triple.mk 0 0 1] [[3, 4]]
      (by decide) (by decide) rfl (by decide)
      (fun _ _ _ => rfl) (fun _ _ _ => rfl) (fun _ _ _ => rfl)
      (fun _ _ _ _ _ => rfl) (fun _ _ _ _ _ => rfl) (fun _ _ _ _ _ => rfl)).1,
   (ns_strategy_equivalence demoModel 2 2 [Triple.mk 0 0 1] [[3, 4]]
      (by decide) (by decide) rfl (by decide)
      (fun _ _ _ => rfl) (fun _ _ _ => rfl) (fun _ _ _ => rfl)
      (fun _ _ _ _ _ => rfl) (fun _ _ _ _ _ => rfl) (fun _ _ _ _ _ => rfl)).2.1⟩

/-! ## Per-chunk, per-slot labels, loss and backward
(TrainingJobNegativeSampling._process_batch, lines 1158-1324).

For each chunk and each slot the loop skips slots with `num_samples <= 0`
(line 1180-1181), lazily (re)builds the gold label matrix
`labels = zeros(chunk_size, 1 + num_samples); labels[:, 0] = 1` whenever the
cached tensor's shape differs (lines 1185-1193), computes
`loss(scores, labels, num_negatives) / batch_size` (line 1310-1312),
accumulates the scalar into `loss_value` for reporting (line 1313), and calls
backward on the per-chunk-slot value (line 1318).  The scores/loss pipeline
is abstracted as a function of (chunk_start, chunk_end, slot). -/

/-- `labels = torch.zeros((chunk_size, 1 + num_samples)); labels[:, 0] = 1`
(lines 1189-1192): value 1 in column 0 and 0 everywhere else. -/
def mkLabels (m k : ℕ) : List (List ℚ) :=
  List.replicate m ((1 : ℚ) :: List.replicate k 0)

/-- The shape test `labels.shape != torch.Size([chunk_size, 1 + num_samples])`
(lines 1185-1187) on a rectangular matrix with at least one row. -/
def labelsShapeMatches (L : List (List ℚ)) (m k : ℕ) : Bool :=
  decide (L.length = m) && decide ((L.headD []).length = 1 + k)

/-- The labels tensor actually passed to the loss call: reuse the cached one
when the shape matches, rebuild otherwise (lines 1185-1193). -/
def labelsFor (st : Option (List (List ℚ))) (m k : ℕ) : List (List ℚ) :=
  match st with
  | none => mkLabels m k
  | some L => if labelsShapeMatches L m k then L else mkLabels m k

/-- One forward/backward record per slot with negatives, within one chunk. -/
structure NSEvent where
  chunkStart : ℕ
  chunkEnd : ℕ
  slot : ℕ
  k : ℕ
  labels : List (List ℚ)
  backwardValue : ℚ
deriving DecidableEq

/-- The slot loop of one chunk (lines 1178-1319).  `lossOf cs ce slot` stands
for the scalar loss the loss collaborator returns on the chunk-slot scores
(before division by the batch size); the state is the cached labels tensor
and the running reported `loss_value`. -/
def processSlots (lossOf : ℕ → ℕ → ℕ → ℚ) (bs : ℕ) (ks : ℕ → ℕ) (cs ce : ℕ) :
    List ℕ → Option (List (List ℚ)) → ℚ →
      Option (List (List ℚ)) × List NSEvent × ℚ
  | [], st, acc => (st, [], acc)
  | slot :: rest, st, acc =>
      if ks slot = 0 then processSlots lossOf bs ks cs ce rest st acc
      else
        let L := labelsFor st (ce - cs) (ks slot)
        let v := lossOf cs ce slot / (bs : ℚ)
        let r := processSlots lossOf bs ks cs ce rest (some L) (acc + v)
        (r.1, NSEvent.mk cs ce slot (ks slot) L v :: r.2.1, r.2.2)

/-- The chunk loop (lines 1167-1319), threading the cached labels tensor and
the reported loss across chunks. -/
def processChunks (lossOf : ℕ → ℕ → ℕ → ℚ) (bs : ℕ) (ks : ℕ → ℕ) :
    List (ℕ × ℕ) → Option (List (List ℚ)) → ℚ →
      Option (List (List ℚ)) × List NSEvent × ℚ
  | [], st, acc => (st, [], acc)
  | r :: rest, st, acc =>
      let out := processSlots lossOf bs ks r.1 r.2 [0, 1, 2] st acc
      let out2 := processChunks lossOf bs ks rest out.1 out.2.2
      (out2.1, out.2.1 ++ out2.2.1, out2.2.2)

/-- `_process_batch` for negative sampling (lines 1148-1324): chunk the batch,
run the slot loop per chunk, return the emitted forward/backward events and
the reported `loss_value`. -/
def processBatchNS (lossOf : ℕ → ℕ → ℕ → ℚ) (bs mc : ℕ) (ks : ℕ → ℕ) :
    List NSEvent × ℚ :=
  ((processChunks lossOf bs ks (chunkRanges bs mc) none 0).2.1,
   (processChunks lossOf bs ks (chunkRanges bs mc) none 0).2.2)

/-- Invariant of the cached labels tensor: it is either absent or a label
matrix built by `mkLabels` with at least one row and one negative. -/
def GoodLabelsState (st : Option (List (List ℚ))) : Prop :=
  st = none ∨ ∃ m k, 0 < m ∧ 0 < k ∧ st = some (mkLabels m k)

theorem labelsFor_good (st : Option (List (List ℚ))) (m k : ℕ)
    (hst : GoodLabelsState st) (_hm : 0 < m) (_hk : 0 < k) :
    labelsFor st m k = mkLabels m k := by
  rcases hst with hnone | ⟨m0, k0, hm0, hk0, hsome⟩
  · subst hnone; rfl
  · subst hsome
    have hred : labelsFor (some (mkLabels m0 k0)) m k =
        if labelsShapeMatches (mkLabels m0 k0) m k then mkLabels m0 k0
        else mkLabels m k := rfl
    rw [hred]
    by_cases hsh : labelsShapeMatches (mkLabels m0 k0) m k = true
    · rw [if_pos hsh]
      unfold labelsShapeMatches at hsh
      rw [Bool.and_eq_true, decide_eq_true_eq, decide_eq_true_eq] at hsh
      obtain ⟨hlen, hhead⟩ := hsh
      unfold mkLabels at hlen hhead ⊢
      rw [List.length_replicate] at hlen
      obtain ⟨m1, rfl⟩ := Nat.exists_eq_succ_of_ne_zero (Nat.pos_iff_ne_zero.mp hm0)
      rw [List.replicate_succ, List.headD_cons, List.length_cons,
        List.length_replicate] at hhead
      have hk0k : k0 = k := by omega
      rw [hk0k, hlen]
    · rw [if_neg hsh]

theorem goodLabelsState_mk (m k : ℕ) (hm : 0 < m) (hk : 0 < k) :
    GoodLabelsState (some (mkLabels m k)) :=
  Or.inr ⟨m, k, hm, hk, rfl⟩

/-- Specification of one chunk's slot loop. -/
theorem processSlots_spec (lossOf : ℕ → ℕ → ℕ → ℚ) (bs : ℕ) (ks : ℕ → ℕ)
    (cs ce : ℕ) (hcs : cs < ce) :
    ∀ slots st acc, GoodLabelsState st →
      GoodLabelsState (processSlots lossOf bs ks cs ce slots st acc).1 ∧
      (∀ e ∈ (processSlots lossOf bs ks cs ce slots st acc).2.1,
        e.chunkStart = cs ∧ e.chunkEnd = ce ∧ e.slot ∈ slots ∧
        e.k = ks e.slot ∧ 0 < e.k ∧
        e.labels = mkLabels (ce - cs) e.k ∧
        e.backwardValue = lossOf cs ce e.slot / (bs : ℚ)) ∧
      (processSlots lossOf bs ks cs ce slots st acc).2.2 =
        acc + (((processSlots lossOf bs ks cs ce slots st acc).2.1).map
          NSEvent.backwardValue).sum := by
  intro slots
  induction slots with
  | nil =>
      intro st acc hst
      exact ⟨hst, by simp [processSlots], by simp [processSlots]⟩
  | cons slot rest ih =>
      intro st acc hst
      by_cases hk : ks slot = 0
      · unfold processSlots
        rw [if_pos hk]
        obtain ⟨h1, h2, h3⟩ := ih st acc hst
        exact ⟨h1, fun e he => by
          obtain ⟨e1, e2, e3, e4, e5, e6, e7⟩ := h2 e he
          exact ⟨e1, e2, List.mem_cons_of_mem _ e3, e4, e5, e6, e7⟩, h3⟩
      · unfold processSlots
        rw [if_neg hk]
        have hkpos : 0 < ks slot := Nat.pos_of_ne_zero hk
        have hmpos : 0 < ce - cs := by omega
        have hL : labelsFor st (ce - cs) (ks slot) = mkLabels (ce - cs) (ks slot) :=
          labelsFor_good st _ _ hst hmpos hkpos
        have hst' : GoodLabelsState (some (labelsFor st (ce - cs) (ks slot))) := by
          rw [hL]; exact goodLabelsState_mk _ _ hmpos hkpos
        obtain ⟨h1, h2, h3⟩ :=
          ih (some (labelsFor st (ce - cs) (ks slot)))
            (acc + lossOf cs ce slot / (bs : ℚ)) hst'
        refine ⟨h1, ?_, ?_⟩
        · intro e he
          rcases List.mem_cons.mp he with heq | hmem
          · subst heq
            exact ⟨rfl, rfl, List.mem_cons_self _ _, rfl, hkpos, by rw [hL], rfl⟩
          · obtain ⟨e1, e2, e3, e4, e5, e6, e7⟩ := h2 e hmem
            exact ⟨e1, e2, List.mem_cons_of_mem _ e3, e4, e5, e6, e7⟩
        · rw [List.map_cons, List.sum_cons]
          dsimp only
          rw [h3]
          ring

/-- Specification of the whole chunk loop. -/
theorem processChunks_spec (lossOf : ℕ → ℕ → ℕ → ℚ) (bs : ℕ) (ks : ℕ → ℕ) :
    ∀ ranges st acc, GoodLabelsState st → (∀ r ∈ ranges, r.1 < r.2) →
      GoodLabelsState (processChunks lossOf bs ks ranges st acc).1 ∧
      (∀ e ∈ (processChunks lossOf bs ks ranges st acc).2.1,
        (e.chunkStart, e.chunkEnd) ∈ ranges ∧ e.slot ∈ [0, 1, 2] ∧
        e.k = ks e.slot ∧ 0 < e.k ∧
        e.labels = mkLabels (e.chunkEnd - e.chunkStart) e.k ∧
        e.backwardValue = lossOf e.chunkStart e.chunkEnd e.slot / (bs : ℚ)) ∧
      (processChunks lossOf bs ks ranges st acc).2.2 =
        acc + (((processChunks lossOf bs ks ranges st acc).2.1).map
          NSEvent.backwardValue).sum := by
  intro ranges
  induction ranges with
  | nil =>
      intro st acc hst _
      exact ⟨hst, by simp [processChunks], by simp [processChunks]⟩
  | cons r rest ih =>
      intro st acc hst hr
      have hrr : r.1 < r.2 := hr r (List.mem_cons_self _ _)
      obtain ⟨h1, h2, h3⟩ := processSlots_spec lossOf bs ks r.1 r.2 hrr [0, 1, 2] st acc hst
      obtain ⟨g1, g2, g3⟩ :=
        ih (processSlots lossOf bs ks r.1 r.2 [0, 1, 2] st acc).1
          (processSlots lossOf bs ks r.1 r.2 [0, 1, 2] st acc).2.2 h1
          (fun r' hr' => hr r' (List.mem_cons_of_mem _ hr'))
      unfold processChunks
      refine ⟨g1, ?_, ?_⟩
      · intro e he
        rcases List.mem_append.mp he with hmem | hmem
        · obtain ⟨e1, e2, e3, e4, e5, e6, e7⟩ := h2 e hmem
          refine ⟨?_, e3, e4, e5, ?_, ?_⟩
          · rw [e1, e2]
            exact List.mem_cons_self _ _
          · rw [e1, e2]; exact e6
          · rw [e1, e2]; exact e7
        · obtain ⟨g1', g2', g3', g4', g5', g6'⟩ := g2 e hmem
          exact ⟨List.mem_cons_of_mem _ g1', g2', g3', g4', g5', g6'⟩
      · dsimp only
        rw [g3, h3, List.map_append, List.sum_append]
        ring

/-- C7: in negative-sampling batch processing, every loss call receives a
labels matrix of shape [chunk_size, 1+k] with value 1 in column 0 and 0
everywhere else; slots with k = 0 contribute no scoring/loss/backward event at
all; each chunk-slot loss is divided by the original full batch size (not the
chunk size) before its backward call; and the reported `loss_value` is exactly
the sum of the per-chunk-slot backward scalars (reporting only).
(Lines 1158-1324.) -/
theorem ns_chunk_slot_loss (lossOf : ℕ → ℕ → ℕ → ℚ) (bs mc : ℕ) (ks : ℕ → ℕ)
    (hbs : 0 < bs) :
    (∀ e ∈ (processBatchNS lossOf bs mc ks).1,
      e.slot ∈ [0, 1, 2] ∧ e.k = ks e.slot ∧ 0 < e.k ∧
      e.labels = List.replicate (e.chunkEnd - e.chunkStart)
        ((1 : ℚ) :: List.replicate e.k 0) ∧
      e.chunkEnd - e.chunkStart ≤ resolvedChunkSize bs mc ∧
      e.backwardValue = lossOf e.chunkStart e.chunkEnd e.slot / (bs : ℚ)) ∧
    (processBatchNS lossOf bs mc ks).2 =
      (((processBatchNS lossOf bs mc ks).1).map NSEvent.backwardValue).sum := by
  have hranges : ∀ r ∈ chunkRanges bs mc, r.1 < r.2 :=
    fun r hr => (chunkRanges_mem_bounds bs mc hbs r hr).1
  obtain ⟨h1, h2, h3⟩ :=
    processChunks_spec lossOf bs ks (chunkRanges bs mc) none 0 (Or.inl rfl) hranges
  constructor
  · intro e he
    obtain ⟨e1, e2, e3, e4, e5, e6⟩ := h2 e he
    refine ⟨e2, e3, e4, e5, ?_, e6⟩
    -- chunk size bound from the chunk range list
    unfold chunkRanges at e1
    rw [List.mem_map] at e1
    obtain ⟨i, hi, hpair⟩ := e1
    rw [List.mem_range] at hi
    have hcs : resolvedChunkSize bs mc * i = e.chunkStart :=
      congrArg Prod.fst hpair
    have hce : min (resolvedChunkSize bs mc * (i + 1)) bs = e.chunkEnd :=
      congrArg Prod.snd hpair
    have hmul : resolvedChunkSize bs mc * (i + 1) =
        resolvedChunkSize bs mc * i + resolvedChunkSize bs mc := by ring
    rw [← hcs, ← hce, Nat.min_def]
    split <;> omega
  · rw [processBatchNS] at *
    dsimp only
    rw [h3]
    ring

/-- Witness for C7: batch size 4, chunk size 3, negatives only for slot O. -/
theorem ns_chunk_slot_loss_witness :
    (processBatchNS (fun _ _ _ => (6 : ℚ)) 4 3 (fun slot => if slot = 2 then 2 else 0)).2 =
      (((processBatchNS (fun _ _ _ => (6 : ℚ)) 4 3
          (fun slot => if slot = 2 then 2 else 0)).1).map NSEvent.backwardValue).sum :=
  (ns_chunk_slot_loss (fun _ _ _ => (6 : ℚ)) 4 3
    (fun slot => if slot = 2 then 2 else 0) (by decide)).2

/-! ## KvsAll label smoothing application
(TrainingJobKvsAll._process_batch, lines 1035-1041).

When `self.label_smoothing > 0.0`, every query type's dense label matrix
except the relation-target type "s_o" is replaced by
`(1.0 - self.label_smoothing) * labels + 1.0 / labels.size(1)`. -/

/-- The elementwise transformation of line 1039-1041:
`(1.0 - eps) * y + 1.0 / labels.size(1)`. -/
def smoothEntry (eps : ℚ) (nCols : ℕ) (y : ℚ) : ℚ :=
  (1 - eps) * y + 1 / (nCols : ℚ)

/-- `labels.size(1)`: the column count of a (rectangular) label matrix. -/
def numCols (labels : List (List ℚ)) : ℕ :=
  (labels.headD []).length

/-- The label-smoothing step of _process_batch for one query type's label
matrix (lines 1035-1041): applied only when ε > 0 and the query type is not
"s_o". -/
def smoothLabels (eps : ℚ) (queryType : String) (labels : List (List ℚ)) :
    List (List ℚ) :=
  if 0 < eps ∧ queryType ≠ "s_o" then
    labels.map (fun row => row.map (smoothEntry eps (numCols labels)))
  else labels

theorem getD_map_lt {α β : Type} (f : α → β) (l : List α) (i : ℕ) (d : α)
    (d' : β) (hi : i < l.length) : (l.map f).getD i d' = f (l.getD i d) := by
  have hi' : i < (l.map f).length := by rw [List.length_map]; exact hi
  rw [List.getD_eq_getElem _ _ hi', List.getElem_map, List.getD_eq_getElem _ _ hi]

/-- C3 counterexample: with ε = 1/2 on the one-column label matrix [[1]], the
code produces (1-ε)·1 + 1/1 = 3/2, but the claimed transformation
(1-ε)·y + ε/num_targets yields (1-ε)·1 + ε/1 = 1, and 3/2 ≠ 1.  The code adds
1/num_targets, not ε/num_targets (line 1041). -/
theorem label_smoothing_claim_counterexample :
    smoothLabels (1/2) "sp_" [[1]] = [[3/2]] ∧
    (1 - (1 : ℚ)/2) * 1 + ((1 : ℚ)/2) / 1 = 1 ∧
    ((3 : ℚ)/2) ≠ 1 := by
  refine ⟨?_, by norm_num, by norm_num⟩
  unfold smoothLabels
  rw [if_pos ⟨by norm_num, by decide⟩]
  unfold numCols smoothEntry
  norm_num

/-- C3 (amended): when ε > 0 is configured, the dense label matrix of every
entity-target query type (every query type other than "s_o") is transformed
elementwise to (1-ε)·y + 1/num_targets — with a constant additive term
1/num_targets, not ε/num_targets — where num_targets is the column count of
the matrix; the "s_o" label matrix is left unchanged.  (Lines 1035-1041.) -/
theorem label_smoothing_applied (eps : ℚ) (labels : List (List ℚ))
    (heps : 0 < eps) :
    (∀ qt : String, qt ≠ "s_o" → ∀ i j, i < labels.length →
      j < (labels.getD i []).length →
      ((smoothLabels eps qt labels).getD i []).getD j 0 =
        (1 - eps) * ((labels.getD i []).getD j 0) + 1 / (numCols labels : ℚ)) ∧
    smoothLabels eps "s_o" labels = labels := by
  constructor
  · intro qt hqt i j hi hj
    unfold smoothLabels
    rw [if_pos ⟨heps, hqt⟩]
    rw [getD_map_lt _ labels i [] [] hi]
    rw [getD_map_lt _ (labels.getD i []) j 0 0 hj]
    rfl
  · unfold smoothLabels
    rw [if_neg (fun h => h.2 rfl)]

/-- Witness for C3 (amended) at ε = 1/2 on the 1×2 matrix [[0, 1]], entry
(0, 1). -/
theorem label_smoothing_applied_witness :
    ((smoothLabels (1/2) "sp_" [[(0 : ℚ), 1]]).getD 0 []).getD 1 0 =
      (1 - (1 : ℚ)/2) * (([[(0 : ℚ), 1]].getD 0 []).getD 1 0) +
        1 / (numCols [[(0 : ℚ), 1]] : ℚ) :=
  (label_smoothing_applied (1/2) [[(0 : ℚ), 1]] (by norm_num)).1 "sp_"
    (by decide) 0 1 (by decide) (by decide)

/-! ## KvsAll label-smoothing validation at job construction
(TrainingJobKvsAll.__init__, lines 817-852).

`config.check_range("KvsAll.label_smoothing", float("-inf"), 1.0,
max_inclusive=False)` is modelled from its call site: it raises unless the
configured value lies in (-inf, 1.0).  Then: a negative value raises unless
`train.auto_correct` is set, in which case it is clamped to 0 and logged; a
positive value that is at most 1/num_entities raises unless auto-correct is
set, in which case it is raised to 1/num_entities and logged; any other value
below 1.0 is accepted unchanged. -/

/-- Outcome of the constructor-time label-smoothing validation: a raised
exception, or an accepted value together with a flag recording whether an
auto-correction clamp was applied and logged. -/
inductive SmoothCheck where
  | fatal : String → SmoothCheck
  | ok : ℚ → Bool → SmoothCheck
deriving DecidableEq

def rangeMsg : String := "label_smoothing must be below 1.0"

def negMsg : String := "Label_smoothing should be at least 0"

def smallMsg : String := "Label_smoothing should be at least 1/num_entities"

/-- The validation chain of lines 819-852. -/
def checkLabelSmoothing (autoCorrect : Bool) (numEntities : ℕ) (eps : ℚ) :
    SmoothCheck :=
  if 1 ≤ eps then .fatal rangeMsg
  else if eps < 0 then
    (if autoCorrect then .ok 0 true else .fatal negMsg)
  else if 0 < eps ∧ eps ≤ 1 / (numEntities : ℚ) then
    (if autoCorrect then .ok (1 / (numEntities : ℚ)) true else .fatal smallMsg)
  else .ok eps false

/-- C4 counterexample: with num_entities = 2 the claim says ε = 1/4 ∈ [0, 1/2)
is accepted unmodified and ε = 3/4 ≥ 1/2 is an error, but the construction
raises on ε = 1/4 (positive values at or below 1/num_entities are rejected)
and accepts ε = 3/4 unchanged — the code's bound is a lower bound on positive
ε, not an upper bound (lines 834-852). -/
theorem label_smoothing_bound_counterexample :
    checkLabelSmoothing false 2 (1/4) = SmoothCheck.fatal smallMsg ∧
    checkLabelSmoothing false 2 (1/4) ≠ SmoothCheck.ok (1/4) false ∧
    checkLabelSmoothing false 2 (3/4) = SmoothCheck.ok (3/4) false := by
  have e1 : checkLabelSmoothing false 2 (1/4) = SmoothCheck.fatal smallMsg := by
    unfold checkLabelSmoothing
    rw [if_neg (by norm_num), if_neg (by norm_num),
      if_pos (show (0 : ℚ) < 1/4 ∧ (1/4 : ℚ) ≤ 1 / ((2 : ℕ) : ℚ) by
        constructor <;> norm_num),
      if_neg Bool.false_ne_true]
  refine ⟨e1, ?_, ?_⟩
  · intro hcon
    rw [e1] at hcon
    exact SmoothCheck.noConfusion hcon
  · unfold checkLabelSmoothing
    rw [if_neg (by norm_num), if_neg (by norm_num),
      if_neg (show ¬((0 : ℚ) < 3/4 ∧ (3/4 : ℚ) ≤ 1 / ((2 : ℕ) : ℚ)) by
        rintro ⟨h1, h2⟩
        norm_num at h2)]

/-- C4 (amended): a configured label-smoothing ε is accepted without
modification iff ε = 0 or 1/num_entities < ε < 1; a negative ε raises a fatal
error when auto-correction is disabled and is clamped to 0 (logged) when
enabled; a positive ε at or below 1/num_entities (with ε < 1) raises a fatal
error when auto-correction is disabled and is clamped up to 1/num_entities
(logged) when enabled; and ε ≥ 1 is always fatal (range check).
(Lines 817-852.) -/
theorem label_smoothing_bound_check (numEntities : ℕ) (eps : ℚ) :
    (∀ ac, checkLabelSmoothing ac numEntities eps = SmoothCheck.ok eps false ↔
      (eps = 0 ∨ (1 / (numEntities : ℚ) < eps ∧ eps < 1))) ∧
    (eps < 0 →
      checkLabelSmoothing false numEntities eps = SmoothCheck.fatal negMsg ∧
      checkLabelSmoothing true numEntities eps = SmoothCheck.ok 0 true) ∧
    (0 < eps → eps ≤ 1 / (numEntities : ℚ) → eps < 1 →
      checkLabelSmoothing false numEntities eps = SmoothCheck.fatal smallMsg ∧
      checkLabelSmoothing true numEntities eps =
        SmoothCheck.ok (1 / (numEntities : ℚ)) true) ∧
    (1 ≤ eps → ∀ ac,
      checkLabelSmoothing ac numEntities eps = SmoothCheck.fatal rangeMsg) := by
  have hinv : (0 : ℚ) ≤ 1 / (numEntities : ℚ) := by positivity
  refine ⟨fun ac => ⟨fun h => ?_, fun h => ?_⟩, fun hneg => ?_, fun hpos hle hlt => ?_,
    fun hge ac => ?_⟩
  · unfold checkLabelSmoothing at h
    split_ifs at h with h1 h2 h3 h4 h5
    all_goals try simp at h
    rcases not_and_or.mp h4 with hc | hc
    · left; linarith [not_lt.mp hc, not_lt.mp h2]
    · right
      exact ⟨lt_of_not_le hc, lt_of_not_le h1⟩
  · rcases h with rfl | ⟨hlo, hhi⟩
    · unfold checkLabelSmoothing
      rw [if_neg (by norm_num), if_neg (by norm_num),
        if_neg (fun hc => lt_irrefl _ hc.1)]
    · unfold checkLabelSmoothing
      rw [if_neg (not_le.mpr hhi), if_neg (not_lt.mpr (le_trans hinv (le_of_lt hlo))),
        if_neg (fun hc => absurd hc.2 (not_le.mpr hlo))]
  · refine ⟨?_, ?_⟩
    · unfold checkLabelSmoothing
      rw [if_neg (by linarith), if_pos hneg, if_neg Bool.false_ne_true]
    · unfold checkLabelSmoothing
      rw [if_neg (by linarith), if_pos hneg, if_pos rfl]
  · refine ⟨?_, ?_⟩
    · unfold checkLabelSmoothing
      rw [if_neg (not_le.mpr hlt), if_neg (by linarith), if_pos ⟨hpos, hle⟩,
        if_neg Bool.false_ne_true]
    · unfold checkLabelSmoothing
      rw [if_neg (not_le.mpr hlt), if_neg (by linarith), if_pos ⟨hpos, hle⟩,
        if_pos rfl]
  · unfold checkLabelSmoothing
    rw [if_pos hge]

/-- Witness for C4 (amended): num_entities = 2, ε = 3/4 is accepted unchanged. -/
theorem label_smoothing_bound_check_witness :
    checkLabelSmoothing true 2 (3/4) = SmoothCheck.ok (3/4) false :=
  ((label_smoothing_bound_check 2 (3/4)).1 true).mpr
    (Or.inr ⟨by norm_num, by norm_num⟩)

/-! ## KvsAll collate: label_coords construction
(TrainingJobKvsAll._get_collate_fun.collate, lines 916-997).

The collate function first counts `num_ones` by resolving every example index
through the cumulative `query_end_index` boundaries and summing
`label_offsets[i+1] - label_offsets[i]` (lines 930-941), allocates
`label_coords` with exactly `num_ones` rows, then fills rows per example:
column 0 the in-batch row index, column 1 the labels slice
`labels[start:end]` (lines 943-987). -/

/-- The per-split index data the collate closure reads: enabled query types,
their cumulative example boundaries, and per-type offsets/labels arrays. -/
structure KvsAllData where
  queryTypes : List String
  queryEndIndex : List ℕ
  labelOffsets : String → List ℕ
  labels : String → List ℕ

/-- The resolution loop `for query_type_index, query_type in
enumerate(self.query_types)` with running start/end boundaries: the first
query type whose end boundary exceeds the example index wins, and the example
index is made local by subtracting the previous boundary (lines 932-941,
repeated at lines 950-966). -/
def resolveAux : List (String × ℕ) → ℕ → ℕ → Option (String × ℕ)
  | [], _, _ => none
  | (qt, endIdx) :: rest, start, e =>
      if e < endIdx then some (qt, e - start) else resolveAux rest endIdx e

def resolveExample (D : KvsAllData) (e : ℕ) : Option (String × ℕ) :=
  resolveAux (D.queryTypes.zip D.queryEndIndex) 0 e

/-- Labels contributed by one example to `num_ones`
(`label_offsets[i+1] - label_offsets[i]`, lines 938-939).  An example that
resolves to no query type contributes nothing (the Python counting loop falls
through without a break). -/
def exampleLabelCount (D : KvsAllData) (e : ℕ) : ℕ :=
  match resolveExample D e with
  | some (qt, i) =>
      (D.labelOffsets qt).getD (i + 1) 0 - (D.labelOffsets qt).getD i 0
  | none => 0

/-- `num_ones`: the batch's total label count, computed before allocation
(lines 930-941). -/
def numOnes (D : KvsAllData) (batch : List ℕ) : ℕ :=
  batch.foldl (fun acc e => acc + exampleLabelCount D e) 0

/-- The label_coords rows contributed by one example: column 0 is the
in-batch row index, column 1 the label values `labels[start:end]` in order
(lines 969-977). -/
def exampleCoords (D : KvsAllData) (batchIndex : ℕ) (e : ℕ) : List (ℕ × ℕ) :=
  match resolveExample D e with
  | some (qt, i) =>
      (((D.labels qt).drop ((D.labelOffsets qt).getD i 0)).take
          ((D.labelOffsets qt).getD (i + 1) 0 - (D.labelOffsets qt).getD i 0)).map
        (fun v => (batchIndex, v))
  | none => []

def labelCoordsAux (D : KvsAllData) : ℕ → List ℕ → List (ℕ × ℕ)
  | _, [] => []
  | bi, e :: rest => exampleCoords D bi e ++ labelCoordsAux D (bi + 1) rest

/-- The full `label_coords` table of a batch:
`for batch_index, example_index in enumerate(batch)` appends each example's
rows in order (lines 948-987). -/
def labelCoords (D : KvsAllData) (batch : List ℕ) : List (ℕ × ℕ) :=
  labelCoordsAux D 0 batch

/-- Well-formedness of the offsets of one example: the slice
`labels[start:end]` taken by the collate code lies inside the labels array. -/
def offsetsInRange (D : KvsAllData) (e : ℕ) : Bool :=
  match resolveExample D e with
  | some (qt, i) =>
      decide ((D.labelOffsets qt).getD (i + 1) 0 ≤ (D.labels qt).length)
  | none => true

theorem foldl_add_count (f : ℕ → ℕ) (l : List ℕ) :
    ∀ a, l.foldl (fun acc e => acc + f e) a = a + (l.map f).sum := by
  induction l with
  | nil => intro a; simp
  | cons e rest ih =>
      intro a
      rw [List.foldl_cons, ih (a + f e), List.map_cons, List.sum_cons]
      omega

theorem exampleCoords_length (D : KvsAllData) (bi e : ℕ)
    (hb : offsetsInRange D e = true) :
    (exampleCoords D bi e).length = exampleLabelCount D e := by
  cases hres : resolveExample D e with
  | none => simp [exampleCoords, exampleLabelCount, hres]
  | some r =>
      obtain ⟨qt, i⟩ := r
      simp only [offsetsInRange, hres, decide_eq_true_eq] at hb
      simp only [exampleCoords, exampleLabelCount, hres, List.length_map,
        List.length_take, List.length_drop]
      omega

theorem exampleCoords_fst (D : KvsAllData) (bi e : ℕ) (p : ℕ × ℕ)
    (hp : p ∈ exampleCoords D bi e) : p.1 = bi := by
  cases hres : resolveExample D e with
  | none => simp [exampleCoords, hres] at hp
  | some r =>
      obtain ⟨qt, i⟩ := r
      simp only [exampleCoords, hres, List.mem_map] at hp
      obtain ⟨v, _, hv⟩ := hp
      rw [← hv]

theorem labelCoordsAux_length (D : KvsAllData) :
    ∀ (batch : List ℕ) (bi : ℕ), (∀ e ∈ batch, offsetsInRange D e = true) →
      (labelCoordsAux D bi batch).length =
        (batch.map (exampleLabelCount D)).sum := by
  intro batch
  induction batch with
  | nil => intro bi _; simp [labelCoordsAux]
  | cons e rest ih =>
      intro bi hb
      simp only [labelCoordsAux, List.length_append, List.map_cons, List.sum_cons]
      rw [exampleCoords_length D bi e (hb e (List.mem_cons_self _ _)),
        ih (bi + 1) (fun x hx => hb x (List.mem_cons_of_mem _ hx))]

theorem labelCoordsAux_fst_bound (D : KvsAllData) :
    ∀ (batch : List ℕ) (bi : ℕ) (p : ℕ × ℕ), p ∈ labelCoordsAux D bi batch →
      bi ≤ p.1 ∧ p.1 < bi + batch.length := by
  intro batch
  induction batch with
  | nil => intro bi p hp; simp [labelCoordsAux] at hp
  | cons e rest ih =>
      intro bi p hp
      simp only [labelCoordsAux] at hp
      rcases List.mem_append.mp hp with hmem | hmem
      · have h1 : p.1 = bi := exampleCoords_fst D bi e p hmem
        simp only [List.length_cons]
        omega
      · have h2 := ih (bi + 1) p hmem
        simp only [List.length_cons]
        omega

/-- C5: for every batch assembled by the KvsAll collator whose examples all
resolve to a query type and whose offsets stay within the labels array, the
number of rows of label_coords equals exactly the sum, over the batch's
examples, of `offsets[i+1] - offsets[i]` — which is exactly the pre-computed
`num_ones` (no under- or over-allocation); the rows contributed by the i-th
example number exactly `offsets[i+1] - offsets[i]`; and every row index in
column 0 lies in [0, batch_size).  (Lines 916-997.) -/
theorem kvsall_collate_label_coords (D : KvsAllData) (batch : List ℕ)
    (_hres : ∀ e ∈ batch, (resolveExample D e).isSome = true)
    (hoff : ∀ e ∈ batch, offsetsInRange D e = true) :
    (labelCoords D batch).length = numOnes D batch ∧
    numOnes D batch = (batch.map (exampleLabelCount D)).sum ∧
    (∀ e ∈ batch, ∀ bi, (exampleCoords D bi e).length = exampleLabelCount D e) ∧
    (∀ p ∈ labelCoords D batch, p.1 < batch.length) := by
  have hsum : numOnes D batch = (batch.map (exampleLabelCount D)).sum := by
    unfold numOnes
    rw [foldl_add_count]
    omega
  refine ⟨?_, hsum, ?_, ?_⟩
  · unfold labelCoords
    rw [labelCoordsAux_length D batch 0 hoff, hsum]
  · intro e he bi
    exact exampleCoords_length D bi e (hoff e he)
  · intro p hp
    have h := labelCoordsAux_fst_bound D batch 0 p hp
    omega

/-- The spec's concrete scenario: facts [(0,0,1),(0,0,2),(1,0,2)], query type
sp_, giving labels [1,2,2] and offsets [0,2,3]. -/
def demoKvsAll : KvsAllData where
  queryTypes := ["sp_"]
  queryEndIndex := [2]
  labelOffsets := fun _ => [0, 2, 3]
  labels := fun _ => [1, 2, 2]

/-- Witness for C5 on the concrete scenario with batch [0, 1]. -/
theorem kvsall_collate_label_coords_witness :
    (labelCoords demoKvsAll [0, 1]).length = numOnes demoKvsAll [0, 1] :=
  (kvsall_collate_label_coords demoKvsAll [0, 1] (by decide) (by decide)).1

/-! ## Optimizer schedule in the epoch batch loop
(TrainingJob.run_epoch, lines 613-742). -/

/-- Optimizer-related events of the batch loop, tagged by batch index. -/
inductive OptEvent where
  | zeroGrad : ℕ → OptEvent
  | processBatch : ℕ → OptEvent
  | step : ℕ → OptEvent
deriving DecidableEq

/-- The per-epoch batch loop's optimizer event trace: for each batch index
(counted from 0 at the start of the epoch), zero the gradients when
`batch_index % update_freq == 0` (lines 624-625), process the batch, and take
the optimizer step when `batch_index % update_freq == update_freq - 1`
(lines 685-687). -/
def batchLoopTrace (updateFreq numBatches : ℕ) : List OptEvent :=
  (List.range numBatches).flatMap (fun bi =>
    (if bi % updateFreq = 0 then [OptEvent.zeroGrad bi] else []) ++
    [OptEvent.processBatch bi] ++
    (if bi % updateFreq = updateFreq - 1 then [OptEvent.step bi] else []))

/-- C8: during an epoch's batch loop with gradient-accumulation factor
update_freq, the optimizer's gradients are zeroed exactly on the batches with
`batch_index % update_freq == 0` and the optimizer step is taken exactly on
the batches with `batch_index % update_freq == update_freq - 1`, counted from
the start of the epoch; a step never occurs on any other batch.
(Lines 624-625 and 685-687.) -/
theorem optimizer_schedule (updateFreq numBatches bi : ℕ)
    (_huf : 0 < updateFreq) :
    (OptEvent.zeroGrad bi ∈ batchLoopTrace updateFreq numBatches ↔
      bi < numBatches ∧ bi % updateFreq = 0) ∧
    (OptEvent.step bi ∈ batchLoopTrace updateFreq numBatches ↔
      bi < numBatches ∧ bi % updateFreq = updateFreq - 1) := by
  constructor
  · constructor
    · intro h
      rw [batchLoopTrace, List.mem_flatMap] at h
      obtain ⟨a, ha, hmem⟩ := h
      rw [List.mem_range] at ha
      rcases List.mem_append.mp hmem with h1 | h2
      · rcases List.mem_append.mp h1 with h3 | h4
        · by_cases hz : a % updateFreq = 0
          · rw [if_pos hz, List.mem_singleton] at h3
            obtain rfl : bi = a := by injection h3
            exact ⟨ha, hz⟩
          · rw [if_neg hz] at h3
            exact absurd h3 (List.not_mem_nil _)
        · rw [List.mem_singleton] at h4
          exact absurd h4 (by simp)
      · by_cases hs : a % updateFreq = updateFreq - 1
        · rw [if_pos hs, List.mem_singleton] at h2
          exact absurd h2 (by simp)
        · rw [if_neg hs] at h2
          exact absurd h2 (List.not_mem_nil _)
    · rintro ⟨hlt, hmod⟩
      rw [batchLoopTrace, List.mem_flatMap]
      refine ⟨bi, List.mem_range.mpr hlt, ?_⟩
      refine List.mem_append.mpr (Or.inl (List.mem_append.mpr (Or.inl ?_)))
      rw [if_pos hmod]
      exact List.mem_singleton.mpr rfl
  · constructor
    · intro h
      rw [batchLoopTrace, List.mem_flatMap] at h
      obtain ⟨a, ha, hmem⟩ := h
      rw [List.mem_range] at ha
      rcases List.mem_append.mp hmem with h1 | h2
      · rcases List.mem_append.mp h1 with h3 | h4
        · by_cases hz : a % updateFreq = 0
          · rw [if_pos hz, List.mem_singleton] at h3
            exact absurd h3 (by simp)
          · rw [if_neg hz] at h3
            exact absurd h3 (List.not_mem_nil _)
        · rw [List.mem_singleton] at h4
          exact absurd h4 (by simp)
      · by_cases hs : a % updateFreq = updateFreq - 1
        · rw [if_pos hs, List.mem_singleton] at h2
          obtain rfl : bi = a := by injection h2
          exact ⟨ha, hs⟩
        · rw [if_neg hs] at h2
          exact absurd h2 (List.not_mem_nil _)
    · rintro ⟨hlt, hmod⟩
      rw [batchLoopTrace, List.mem_flatMap]
      refine ⟨bi, List.mem_range.mpr hlt, ?_⟩
      refine List.mem_append.mpr (Or.inr ?_)
      rw [if_pos hmod]
      exact List.mem_singleton.mpr rfl

/-- Witness for C8: update_freq = 2, 4 batches; the step occurs on batch 1. -/
theorem optimizer_schedule_witness :
    OptEvent.step 1 ∈ batchLoopTrace 2 4 :=
  ((optimizer_schedule 2 4 1 (by decide)).2).mpr (by decide)

/-! ## Abort on NaN (TrainingJob.run_epoch, lines 651-656).

`cost_value = batch_result.avg_loss + penalty`; then
`if self.abort_on_nan and math.isnan(cost_value): raise FloatingPointError`.
A Python float is modelled by its IEEE class. -/

/-- IEEE classification of the aggregated batch cost (a Python float). -/
inductive PyFloat where
  | finite : ℚ → PyFloat
  | inf : PyFloat
  | neginf : PyFloat
  | nan : PyFloat
deriving DecidableEq

/-- `math.isnan`: true exactly on NaN (false on ±inf and finite values). -/
def isNan : PyFloat → Bool
  | .nan => true
  | _ => false

def nanAbortMsg : String := "Cost became nan, aborting training job"

/-- The abort check of lines 654-656: raise FloatingPointError iff
`self.abort_on_nan and math.isnan(cost_value)`; otherwise the loop continues
to the optimizer step. -/
def nanAbortCheck (abortOnNan : Bool) (cost : PyFloat) : Except String Unit :=
  if abortOnNan && isNan cost then .error nanAbortMsg else .ok ()

/-- C9 counterexample: with abort-on-nan enabled and an infinite aggregated
cost the claim demands an immediate abort, but the code checks `math.isnan`
only — `math.isnan(inf)` is false — so no abort occurs and the value proceeds
to the optimizer step.  (Lines 654-656.) -/
theorem nan_abort_counterexample :
    nanAbortCheck true PyFloat.inf = Except.ok () ∧
    nanAbortCheck true PyFloat.inf ≠ Except.error nanAbortMsg := by
  refine ⟨rfl, fun h => ?_⟩
  exact Except.noConfusion h

/-- C9 (amended): the batch loop aborts with the fatal FloatingPointError iff
abort-on-nan is enabled and the aggregated cost is NaN; an Inf cost never
aborts; with abort-on-nan disabled no abort occurs and processing always
continues (to the next optimizer step).  (Lines 654-656.) -/
theorem nan_abort_check (abortOnNan : Bool) (cost : PyFloat) :
    (nanAbortCheck abortOnNan cost = Except.error nanAbortMsg ↔
      abortOnNan = true ∧ cost = PyFloat.nan) ∧
    (nanAbortCheck abortOnNan cost = Except.error nanAbortMsg ∨
      nanAbortCheck abortOnNan cost = Except.ok ()) := by
  cases abortOnNan <;> cases cost <;> simp [nanAbortCheck, isNan]

/-! ## KvsAll per-batch loss aggregation
(TrainingJobKvsAll._process_batch, lines 1045-1076). -/

/-- The forward/backward loop over query types (lines 1049-1071): for each
query type with at least one example in the batch, the per-type loss divided
by the batch size is ASSIGNED to `loss_value_total` (line 1067 uses `=`, not
`+=`) and a backward pass runs.  `lossOf qt` stands for the scalar
`self.loss(scores, labels)` of that query type; the second component records
the query types for which a backward pass ran, in loop order. -/
def kvsAllLossLoop (lossOf : String → ℚ) (bs : ℕ) (cnt : String → ℕ) :
    List String → ℚ × List String → ℚ × List String
  | [], acc => acc
  | qt :: rest, acc =>
      if 0 < cnt qt then
        kvsAllLossLoop lossOf bs cnt rest (lossOf qt / (bs : ℚ), acc.2 ++ [qt])
      else kvsAllLossLoop lossOf bs cnt rest acc

/-- `_process_batch`'s loss aggregation: starts from `loss_value_total = 0.0`
(line 1046). -/
def kvsAllProcessLoss (lossOf : String → ℚ) (bs : ℕ) (cnt : String → ℕ)
    (queryTypes : List String) : ℚ × List String :=
  kvsAllLossLoop lossOf bs cnt queryTypes (0, [])

theorem kvsAllLossLoop_spec (lossOf : String → ℚ) (bs : ℕ) (cnt : String → ℕ) :
    ∀ (l : List String) (acc : ℚ × List String),
      (kvsAllLossLoop lossOf bs cnt l acc).2 =
        acc.2 ++ l.filter (fun qt => decide (0 < cnt qt)) ∧
      (∀ qt, (l.filter (fun qt => decide (0 < cnt qt))).getLast? = some qt →
        (kvsAllLossLoop lossOf bs cnt l acc).1 = lossOf qt / (bs : ℚ)) ∧
      (l.filter (fun qt => decide (0 < cnt qt)) = [] →
        (kvsAllLossLoop lossOf bs cnt l acc).1 = acc.1) := by
  intro l
  induction l with
  | nil =>
      intro acc
      refine ⟨by simp [kvsAllLossLoop], fun qt hqt => ?_, fun _ => rfl⟩
      simp at hqt
  | cons qt rest ih =>
      intro acc
      by_cases hc : 0 < cnt qt
      · have hstep : kvsAllLossLoop lossOf bs cnt (qt :: rest) acc =
            kvsAllLossLoop lossOf bs cnt rest (lossOf qt / (bs : ℚ), acc.2 ++ [qt]) := by
          simp only [kvsAllLossLoop, if_pos hc]
        have hfil : (qt :: rest).filter (fun x => decide (0 < cnt x)) =
            qt :: rest.filter (fun x => decide (0 < cnt x)) :=
          List.filter_cons_of_pos (by simpa using hc)
        obtain ⟨ih1, ih2, ih3⟩ := ih (lossOf qt / (bs : ℚ), acc.2 ++ [qt])
        refine ⟨?_, ?_, ?_⟩
        · rw [hstep, ih1, hfil]
          simp [List.append_assoc]
        · intro qt' hlast
          rw [hfil] at hlast
          cases hfr : rest.filter (fun x => decide (0 < cnt x)) with
          | nil =>
              rw [hfr] at hlast
              have hq : qt' = qt := by
                have : some qt = some qt' := hlast
                injection this with h
                exact h.symm
              subst hq
              rw [hstep]
              exact ih3 hfr
          | cons a t =>
              rw [hfr, List.getLast?_cons_cons] at hlast
              rw [hstep]
              exact ih2 qt' (by rw [hfr]; exact hlast)
        · intro hnil
          rw [hfil] at hnil
          exact absurd hnil (List.cons_ne_nil _ _)
      · have hstep : kvsAllLossLoop lossOf bs cnt (qt :: rest) acc =
            kvsAllLossLoop lossOf bs cnt rest acc := by
          simp only [kvsAllLossLoop, if_neg hc]
        have hfil : (qt :: rest).filter (fun x => decide (0 < cnt x)) =
            rest.filter (fun x => decide (0 < cnt x)) :=
          List.filter_cons_of_neg (by simpa using hc)
        obtain ⟨ih1, ih2, ih3⟩ := ih acc
        refine ⟨?_, ?_, ?_⟩
        · rw [hstep, hfil]
          exact ih1
        · intro qt' hlast
          rw [hfil] at hlast
          rw [hstep]
          exact ih2 qt' hlast
        · intro hnil
          rw [hfil] at hnil
          rw [hstep]
          exact ih3 hnil

/-- C10: in KvsAll batch processing, the per-query-type loop overwrites the
running total (line 1067 assigns instead of adding): for every batch the
returned avg_loss equals only the batch-size-normalized loss of the last
query type processed that had examples — even though a backward pass runs for
every query type present (one backward per active type, in loop order) — and
for a batch whose examples are all of a single query type the result is that
type's normalized loss.  (Lines 1045-1076.) -/
theorem kvsall_avg_loss_overwrite (lossOf : String → ℚ) (bs : ℕ)
    (cnt : String → ℕ) (queryTypes : List String) :
    (kvsAllProcessLoss lossOf bs cnt queryTypes).2 =
      queryTypes.filter (fun qt => decide (0 < cnt qt)) ∧
    (∀ qt, (queryTypes.filter (fun qt => decide (0 < cnt qt))).getLast? = some qt →
      (kvsAllProcessLoss lossOf bs cnt queryTypes).1 = lossOf qt / (bs : ℚ)) ∧
    (queryTypes.filter (fun qt => decide (0 < cnt qt)) = [] →
      (kvsAllProcessLoss lossOf bs cnt queryTypes).1 = 0) := by
  obtain ⟨h1, h2, h3⟩ := kvsAllLossLoop_spec lossOf bs cnt queryTypes (0, [])
  exact ⟨by simpa using h1, h2, h3⟩

def demoLoss : String → ℚ := fun qt => if qt = "sp_" then 2 else 5

def demoCnt : String → ℕ := fun _ => 1

/-- Witness for C10: two active query types ["sp_", "_po"]; the reported loss
is the second type's loss only. -/
theorem kvsall_avg_loss_overwrite_witness :
    (kvsAllProcessLoss demoLoss 1 demoCnt ["sp_", "_po"]).1 =
      demoLoss "_po" / ((1 : ℕ) : ℚ) :=
  (kvsall_avg_loss_overwrite demoLoss 1 demoCnt ["sp_", "_po"]).2.1 "_po" rfl

end KgeTrain
